import Mathlib

/-!
Verification of the `spectrum-analyzer` crate's analysis pipeline.

Shallow embedding conventions:
* `f32` values are modelled as exact rationals (`ℚ`): the claims under
  study concern the algebraic and structural behaviour of the pipeline
  (lengths, keys, ordering, statistics), not rounding.  The one place
  where IEEE-754 non-finite semantics is the point of a claim
  (`hamming_window` on a length-1 input) uses a dedicated scalar model
  `F32` with `nan`/`inf` values.
* The external FFT primitive (`rustfft::Radix4`) is out of scope per the
  spec (consumed as a black box); the pipeline is parametrised by a
  transform `fft` on complex buffers, constrained only where a claim
  needs its length-preservation contract.
* `f32::sqrt`/`cosf` and the `PI` constant are transcendental and not
  exactly computable; they are abstracted as parameters (`sqrt`, `cos`,
  `pi`) so that every definition stays executable.  Claims mentioning
  these functions quantify over the parameters.
* `BTreeMap<usize, f32>` is modelled as a strictly-key-sorted
  association list with an ordered insert that overwrites equal keys,
  matching `BTreeMap::insert` semantics.
* Rust code that can panic (index out of bounds in `calc_statistics`)
  is embedded with an `Option` result, `none` on the panicking inputs.
-/

namespace SpectrumAnalyzer

/-- Model of `rustfft::num_complex::Complex32`: a (re, im) pair. -/
abbrev Complex32 : Type := ℚ × ℚ

/-! ### Model of `alloc::collections::BTreeMap<usize, f32>` -/

/-- Ordered insert into a key-sorted association list, overwriting an
equal key: the model of `BTreeMap::insert`. -/
def btreeInsert (k : ℕ) (v : ℚ) : List (ℕ × ℚ) → List (ℕ × ℚ)
  | [] => [(k, v)]
  | (k', v') :: rest =>
    if k < k' then (k, v) :: (k', v') :: rest
    else if k = k' then (k, v) :: rest
    else (k', v') :: btreeInsert k v rest

/-- Lookup in an association list: the model of `BTreeMap::get`. -/
def btreeLookup (k : ℕ) : List (ℕ × ℚ) → Option ℚ
  | [] => none
  | (k', v) :: rest => if k' = k then some v else btreeLookup k rest

/-- The value attached to the LAST entry of the list whose key is `k`
(reference function for the last-bin-wins collision policy). -/
def lookupLast (k : ℕ) : List (ℕ × ℚ) → Option ℚ
  | [] => none
  | (k', v) :: rest =>
    match lookupLast k rest with
    | some w => some w
    | none => if k' = k then some v else none

/-! ### `src/lib.rs` -/

/-- `samples_to_complex` (lib.rs:133-138): promote each real sample to a
complex value with zero imaginary part. -/
def samples_to_complex (samples : List ℚ) : List Complex32 :=
  samples.map (fun x => (x, 0))

/-- `Complex32::norm`: `sqrt(re*re + im*im)`, with the square root
abstracted as a parameter. -/
def complexNorm (sqrt : ℚ → ℚ) (c : Complex32) : ℚ :=
  sqrt (c.1 * c.1 + c.2 * c.2)

/-- `fft_result_to_magnitudes` (lib.rs:151-168): take the first
`fft_len / 2` FFT results, map each to its magnitude, then apply the
optional scaling function (identity if none given). -/
def fft_result_to_magnitudes (sqrt : ℚ → ℚ) (fft_result : List Complex32)
    (fft_len : ℕ) (scaling_fn : Option (ℚ → ℚ)) : List ℚ :=
  ((fft_result.take (fft_len / 2)).map (complexNorm sqrt)).map
    (fun s => (scaling_fn.getD id) s)

/-- The frequency assigned to bin `i` (lib.rs:193):
`i as f32 / fft_len as f32 * sampling_rate as f32`. -/
def bin_frequency (fft_len sampling_rate i : ℕ) : ℚ :=
  (i : ℚ) / (fft_len : ℚ) * (sampling_rate : ℚ)

/-- The `usize` key of bin `i` (lib.rs:194): `frequency as usize`.  The
frequency is nonnegative here, so the cast truncates toward zero, which
is the floor. -/
def bin_key (fft_len sampling_rate i : ℕ) : ℕ :=
  (⌊bin_frequency fft_len sampling_rate i⌋).toNat

/-- The loop body of `magnitudes_to_frequency_spectrum`
(lib.rs:190-202), with the running bin index `i` and the map
accumulator made explicit.  The `break` on `frequency > max` becomes
the non-recursive branch. -/
def spectrumLoop (fft_len sampling_rate : ℕ) (max_frequency : Option ℚ) :
    ℕ → List ℚ → List (ℕ × ℚ) → List (ℕ × ℚ)
  | _, [], acc => acc
  | i, vol :: rest, acc =>
    let frequency := bin_frequency fft_len sampling_rate i
    let acc' := btreeInsert (⌊frequency⌋).toNat vol acc
    match max_frequency with
    | some max => if max < frequency then acc'
                  else spectrumLoop fft_len sampling_rate max_frequency (i + 1) rest acc'
    | none => spectrumLoop fft_len sampling_rate max_frequency (i + 1) rest acc'

/-- `magnitudes_to_frequency_spectrum` (lib.rs:183-204). -/
def magnitudes_to_frequency_spectrum (magnitudes : List ℚ) (fft_len : ℕ)
    (sampling_rate : ℕ) (max_frequency : Option ℚ) : List (ℕ × ℚ) :=
  spectrumLoop fft_len sampling_rate max_frequency 0 magnitudes []

/-- `samples_fft_to_spectrum` (lib.rs:66-96), parametrised by the
external FFT primitive and the square-root function. -/
def samples_fft_to_spectrum (fft : List Complex32 → List Complex32)
    (sqrt : ℚ → ℚ) (samples : List ℚ) (sampling_rate : ℕ)
    (scaling_fn : Option (ℚ → ℚ)) (max_frequency : Option ℚ) :
    List (ℕ × ℚ) :=
  let buffer := samples_to_complex samples
  let fft_len := samples.length
  let buffer := fft buffer
  let magnitudes := fft_result_to_magnitudes sqrt buffer fft_len scaling_fn
  magnitudes_to_frequency_spectrum magnitudes fft_len sampling_rate max_frequency

/-- `hann_window` (lib.rs:103-112), with `PI` and `cos` abstracted. -/
def hann_window (pi : ℚ) (cos : ℚ → ℚ) (samples : List ℚ) : List ℚ :=
  (List.range samples.length).map (fun (i : ℕ) =>
    let two_pi_i := 2 * pi * (i : ℚ)
    let cosine := cos (two_pi_i / (samples.length : ℚ))
    let multiplier := 1 / 2 * (1 - cosine)
    multiplier * samples.getD i 0)

/-! ### IEEE-754 scalar model for the `hamming_window` claim

Modelled from the IEEE-754 `f32` arithmetic the source relies on, with
finite values kept exact as rationals: `nan` and signed infinities
(`inf false` positive, `inf true` negative) propagate as in IEEE-754;
rounding and signed zero are not modelled (irrelevant to the claim,
which is about `0.0 / 0.0 = NaN` propagation). -/

inductive F32 : Type where
  | fin : ℚ → F32
  | inf : Bool → F32
  | nan : F32
deriving DecidableEq

namespace F32

/-- IEEE-754 multiplication on the scalar model. -/
def mul : F32 → F32 → F32
  | nan, _ => nan
  | _, nan => nan
  | fin a, fin b => fin (a * b)
  | fin a, inf s => if a = 0 then nan else if a < 0 then inf (!s) else inf s
  | inf s, fin b => if b = 0 then nan else if b < 0 then inf (!s) else inf s
  | inf s, inf t => inf (xor s t)

/-- IEEE-754 division on the scalar model: `0 / 0` is `nan`, a nonzero
finite value over zero is a signed infinity. -/
def div : F32 → F32 → F32
  | nan, _ => nan
  | _, nan => nan
  | fin a, fin b =>
    if b = 0 then (if a = 0 then nan else if a < 0 then inf true else inf false)
    else fin (a / b)
  | inf s, fin b => if b < 0 then inf (!s) else inf s
  | fin _, inf _ => fin 0
  | inf _, inf _ => nan

/-- IEEE-754 subtraction on the scalar model. -/
def sub : F32 → F32 → F32
  | nan, _ => nan
  | _, nan => nan
  | fin a, fin b => fin (a - b)
  | fin _, inf s => inf (!s)
  | inf s, fin _ => inf s
  | inf s, inf t => if s = t then nan else inf s

/-- `cosf` on the scalar model: `cos` of `nan` or an infinity is `nan`,
the finite case is the abstracted cosine. -/
def cosine (cos : ℚ → ℚ) : F32 → F32
  | fin q => fin (cos q)
  | _ => nan

end F32

/-- `hamming_window` (lib.rs:119-126) over the IEEE-754 scalar model:
`multiplier = 0.54 - 0.46 * cos(2 * PI * i / (len - 1))`, pushed as
`multiplier * samples[i]`.  The constants `0.54`, `0.46` and `PI` stand
for their `f32` values (their exact values are irrelevant to the
claims; `pi` is abstracted). -/
def hamming_window (pi : ℚ) (cos : ℚ → ℚ) (samples : List F32) : List F32 :=
  (List.range samples.length).map (fun (i : ℕ) =>
    let angle := F32.div (F32.mul (F32.mul (F32.fin 2) (F32.fin pi)) (F32.fin (i : ℚ)))
      (F32.fin ((samples.length - 1 : ℕ) : ℚ))
    let multiplier := F32.sub (F32.fin (54 / 100))
      (F32.mul (F32.fin (46 / 100)) (F32.cosine cos angle))
    F32.mul multiplier (samples.getD i F32.nan))

/-! ### `src/spectrum.rs`

`FrequencyValue` and `Frequency` live in `src/frequency.rs`, which is
not part of the sources at hand.  Modelled from the spec: frequencies
and magnitudes are IEEE-754 single-precision values ordered and added
numerically; here both are exact rationals. -/

/-- The four statistics cached by `FrequencySpectrum`. -/
structure SpectrumStats where
  average : ℚ
  median : ℚ
  min : ℚ
  max : ℚ
deriving DecidableEq

/-- `calc_statistics` (spectrum.rs:146-181): sort the magnitudes
ascending, then read off sum/average, the median as the mean of the two
central elements, and min/max as the first and last sorted element.
The Rust code indexes `vals[vals.len()/2 - 1]`, `vals[vals.len()/2]`,
`vals[0]` and `vals[vals.len() - 1]`; for fewer than two values the
first index underflows/overruns and the call panics, embedded as
`none`.  Rust's stable slice sort is modelled by insertion sort: over a
linear order both produce the unique sorted permutation. -/
def calc_statistics (data : List (ℚ × ℚ)) : Option SpectrumStats :=
  let vals := (data.map Prod.snd).insertionSort (· ≤ ·)
  if 2 ≤ vals.length then
    let sum := vals.foldl (· + ·) 0
    let avg := sum / (vals.length : ℚ)
    let median := (vals.getD (vals.length / 2 - 1) 0 + vals.getD (vals.length / 2) 0) / 2
    some { average := avg
           median := median
           min := vals.getD 0 0
           max := vals.getD (vals.length - 1) 0 }
  else none

/-- The `FrequencySpectrum` struct (spectrum.rs:18-31): the sorted
(frequency, magnitude) data plus the four cached statistics. -/
structure FrequencySpectrum where
  data : List (ℚ × ℚ)
  average : ℚ
  median : ℚ
  min : ℚ
  max : ℚ
deriving DecidableEq

/-- `FrequencySpectrum::new` (spectrum.rs:38-49): store the data and
immediately run `calc_statistics`; `none` when the statistics
computation panics. -/
def FrequencySpectrum.new (data : List (ℚ × ℚ)) : Option FrequencySpectrum :=
  (calc_statistics data).map (fun st =>
    { data := data, average := st.average, median := st.median
      min := st.min, max := st.max })

/-- `FrequencySpectrum::apply_total_scaling_fn` (spectrum.rs:57-75):
build the per-value transform from the factory applied to the four
cached statistics (in the order min, max, average, median), apply it to
every magnitude in place, then recompute the statistics. -/
def FrequencySpectrum.apply_total_scaling_fn (s : FrequencySpectrum)
    (total_scaling_fn : ℚ → ℚ → ℚ → ℚ → (ℚ → ℚ)) : Option FrequencySpectrum :=
  let scale_fn := total_scaling_fn s.min s.max s.average s.median
  let data := s.data.map (fun p => (p.1, scale_fn p.2))
  (calc_statistics data).map (fun st =>
    { data := data, average := st.average, median := st.median
      min := st.min, max := st.max })

/-! ### Spec-side statistic definitions

These follow the spec's wording (§3, §8): average is the sum over the
count, the median is the mean of the two central elements of the
magnitudes sorted ascending, min/max are the least/greatest magnitude
via the first/last element of the ascending sort. -/

/-- The magnitudes sorted ascending. -/
def sortedVals (vals : List ℚ) : List ℚ :=
  vals.insertionSort (· ≤ ·)

/-- Spec: the average of the two central elements of the ascending
sort, for even-length input. -/
def medianSpec (vals : List ℚ) : ℚ :=
  ((sortedVals vals).getD (vals.length / 2 - 1) 0
    + (sortedVals vals).getD (vals.length / 2) 0) / 2

/-- Spec: sum of the magnitudes over their count. -/
def averageSpec (vals : List ℚ) : ℚ :=
  vals.sum / (vals.length : ℚ)

/-- Spec: the least magnitude (head of the ascending sort). -/
def minSpec (vals : List ℚ) : ℚ :=
  (sortedVals vals).getD 0 0

/-- Spec: the greatest magnitude (last of the ascending sort). -/
def maxSpec (vals : List ℚ) : ℚ :=
  (sortedVals vals).getD (vals.length - 1) 0

/-- The four cached statistics of a spectrum agree with the statistics
recomputed from its current magnitudes. -/
abbrev StatsConsistent (s : FrequencySpectrum) : Prop :=
  s.min = minSpec (s.data.map Prod.snd)
    ∧ s.max = maxSpec (s.data.map Prod.snd)
    ∧ s.average = averageSpec (s.data.map Prod.snd)
    ∧ s.median = medianSpec (s.data.map Prod.snd)

/-- The bins fed to the map-building loop, from index `i` on: bin `j`
carries key `bin_key (i + j)` and the `j`-th magnitude. -/
def binsFrom (fft_len sampling_rate : ℕ) : ℕ → List ℚ → List (ℕ × ℚ)
  | _, [] => []
  | i, v :: rest => (bin_key fft_len sampling_rate i, v) :: binsFrom fft_len sampling_rate (i + 1) rest

/-! ### Lemmas about the `BTreeMap` model -/

theorem btreeLookup_btreeInsert (k k' : ℕ) (v : ℚ) (m : List (ℕ × ℚ)) :
    btreeLookup k (btreeInsert k' v m) =
      if k' = k then some v else btreeLookup k m := by
  induction m with
  | nil =>
    simp only [btreeInsert, btreeLookup]
  | cons p rest ih =>
    obtain ⟨a, w⟩ := p
    simp only [btreeInsert]
    by_cases h1 : k' < a
    · simp only [if_pos h1, btreeLookup]
    · by_cases h2 : k' = a
      · subst h2
        simp only [if_neg h1, if_pos rfl, btreeLookup]
        by_cases h3 : k' = k
        · simp [h3]
        · simp [h3]
      · simp only [if_neg h1, if_neg h2, btreeLookup, ih]
        by_cases h3 : a = k
        · have hk : k' ≠ k := by omega
          simp [h3, hk]
        · simp [h3]

theorem mem_btreeInsert {p : ℕ × ℚ} {k : ℕ} {v : ℚ} {m : List (ℕ × ℚ)}
    (h : p ∈ btreeInsert k v m) : p = (k, v) ∨ p ∈ m := by
  induction m with
  | nil =>
    simp only [btreeInsert, List.mem_singleton] at h
    exact Or.inl h
  | cons q rest ih =>
    obtain ⟨a, w⟩ := q
    simp only [btreeInsert] at h
    split_ifs at h with h1 h2
    · simp only [List.mem_cons] at h ⊢
      tauto
    · simp only [List.mem_cons] at h ⊢
      tauto
    · simp only [List.mem_cons] at h ⊢
      rcases h with h | h
      · tauto
      · rcases ih h with h' | h' <;> tauto

theorem pairwise_btreeInsert {k : ℕ} {v : ℚ} {m : List (ℕ × ℚ)}
    (h : m.Pairwise (fun p q => p.1 < q.1)) :
    (btreeInsert k v m).Pairwise (fun p q => p.1 < q.1) := by
  induction m with
  | nil =>
    simp [btreeInsert]
  | cons q rest ih =>
    obtain ⟨a, w⟩ := q
    rw [List.pairwise_cons] at h
    obtain ⟨ha, hrest⟩ := h
    simp only [btreeInsert]
    by_cases h1 : k < a
    · simp only [if_pos h1]
      refine List.Pairwise.cons ?_ (List.Pairwise.cons ha hrest)
      intro p hp
      simp only [List.mem_cons] at hp
      rcases hp with hp | hp
      · simp [hp, h1]
      · exact lt_trans h1 (ha p hp)
    · by_cases h2 : k = a
      · subst h2
        simp only [if_neg h1, if_pos rfl]
        exact List.Pairwise.cons ha hrest
      · simp only [if_neg h1, if_neg h2]
        refine List.Pairwise.cons ?_ (ih hrest)
        intro p hp
        rcases mem_btreeInsert hp with h' | h'
        · subst h'
          omega
        · exact ha p h'

theorem length_btreeInsert_le (k : ℕ) (v : ℚ) (m : List (ℕ × ℚ)) :
    (btreeInsert k v m).length ≤ m.length + 1 := by
  induction m with
  | nil => simp [btreeInsert]
  | cons q rest ih =>
    obtain ⟨a, w⟩ := q
    simp only [btreeInsert]
    by_cases h1 : k < a
    · simp [if_pos h1]
    · by_cases h2 : k = a
      · simp only [if_neg h1, if_pos h2, List.length_cons]
        omega
      · simp only [if_neg h1, if_neg h2, List.length_cons]
        omega

theorem btreeInsert_of_forall_lt {k : ℕ} {v : ℚ} {m : List (ℕ × ℚ)}
    (h : ∀ p ∈ m, p.1 < k) : btreeInsert k v m = m ++ [(k, v)] := by
  induction m with
  | nil => simp [btreeInsert]
  | cons q rest ih =>
    obtain ⟨a, w⟩ := q
    have ha : a < k := h (a, w) (by simp)
    simp only [btreeInsert, if_neg (by omega : ¬ k < a), if_neg (by omega : ¬ k = a),
      List.cons_append, List.cons.injEq, true_and]
    exact ih (fun p hp => h p (by simp [hp]))

/-! ### Lemmas about the map-building loop -/

theorem length_spectrumLoop_le (fft_len sampling_rate : ℕ) (mf : Option ℚ) :
    ∀ (l : List ℚ) (i : ℕ) (acc : List (ℕ × ℚ)),
    (spectrumLoop fft_len sampling_rate mf i l acc).length ≤ acc.length + l.length := by
  intro l
  induction l with
  | nil =>
    intro i acc
    simp [spectrumLoop]
  | cons v rest ih =>
    intro i acc
    have hins := length_btreeInsert_le (⌊bin_frequency fft_len sampling_rate i⌋).toNat v acc
    simp only [spectrumLoop]
    cases mf with
    | none =>
      have := ih (i + 1) (btreeInsert (⌊bin_frequency fft_len sampling_rate i⌋).toNat v acc)
      simp only [List.length_cons]
      omega
    | some max =>
      by_cases h : max < bin_frequency fft_len sampling_rate i
      · simp only [if_pos h, List.length_cons]
        omega
      · simp only [if_neg h, List.length_cons]
        have := ih (i + 1) (btreeInsert (⌊bin_frequency fft_len sampling_rate i⌋).toNat v acc)
        omega

theorem pairwise_spectrumLoop (fft_len sampling_rate : ℕ) (mf : Option ℚ) :
    ∀ (l : List ℚ) (i : ℕ) (acc : List (ℕ × ℚ)),
    acc.Pairwise (fun p q => p.1 < q.1) →
    (spectrumLoop fft_len sampling_rate mf i l acc).Pairwise (fun p q => p.1 < q.1) := by
  intro l
  induction l with
  | nil =>
    intro i acc hacc
    simpa [spectrumLoop] using hacc
  | cons v rest ih =>
    intro i acc hacc
    have hins := pairwise_btreeInsert (k := (⌊bin_frequency fft_len sampling_rate i⌋).toNat)
      (v := v) hacc
    simp only [spectrumLoop]
    cases mf with
    | none => exact ih (i + 1) _ hins
    | some max =>
      by_cases h : max < bin_frequency fft_len sampling_rate i
      · simpa [if_pos h] using hins
      · simp only [if_neg h]
        exact ih (i + 1) _ hins

theorem isSome_btreeLookup_spectrumLoop (fft_len sampling_rate : ℕ) (mf : Option ℚ) (k : ℕ) :
    ∀ (l : List ℚ) (i : ℕ) (acc : List (ℕ × ℚ)),
    (btreeLookup k acc).isSome →
    (btreeLookup k (spectrumLoop fft_len sampling_rate mf i l acc)).isSome := by
  intro l
  induction l with
  | nil =>
    intro i acc hacc
    simpa [spectrumLoop] using hacc
  | cons v rest ih =>
    intro i acc hacc
    have hins :
        (btreeLookup k (btreeInsert (⌊bin_frequency fft_len sampling_rate i⌋).toNat v acc)).isSome := by
      rw [btreeLookup_btreeInsert]
      split
      · rfl
      · exact hacc
    simp only [spectrumLoop]
    cases mf with
    | none => exact ih (i + 1) _ hins
    | some max =>
      by_cases h : max < bin_frequency fft_len sampling_rate i
      · simpa [if_pos h] using hins
      · simp only [if_neg h]
        exact ih (i + 1) _ hins

theorem btreeLookup_spectrumLoop_none (fft_len sampling_rate k : ℕ) :
    ∀ (l : List ℚ) (i : ℕ) (acc : List (ℕ × ℚ)),
    btreeLookup k (spectrumLoop fft_len sampling_rate none i l acc) =
      match lookupLast k (binsFrom fft_len sampling_rate i l) with
      | some w => some w
      | none => btreeLookup k acc := by
  intro l
  induction l with
  | nil =>
    intro i acc
    simp [spectrumLoop, binsFrom, lookupLast]
  | cons v rest ih =>
    intro i acc
    simp only [spectrumLoop, binsFrom, lookupLast]
    rw [ih (i + 1) (btreeInsert (⌊bin_frequency fft_len sampling_rate i⌋).toNat v acc)]
    cases h : lookupLast k (binsFrom fft_len sampling_rate (i + 1) rest) with
    | some w => rfl
    | none =>
      rw [btreeLookup_btreeInsert]
      unfold bin_key
      by_cases hk : (⌊bin_frequency fft_len sampling_rate i⌋).toNat = k
      · simp [hk]
      · simp [hk]

theorem bin_key_lt_succ {fft_len sampling_rate : ℕ} (hfl : 0 < fft_len)
    (hr : fft_len ≤ sampling_rate) (i : ℕ) :
    bin_key fft_len sampling_rate i < bin_key fft_len sampling_rate (i + 1) := by
  have hflq : (0 : ℚ) < (fft_len : ℚ) := by exact_mod_cast hfl
  have hfreq_nonneg : 0 ≤ bin_frequency fft_len sampling_rate i := by
    unfold bin_frequency
    positivity
  have hstep : bin_frequency fft_len sampling_rate (i + 1) =
      bin_frequency fft_len sampling_rate i + (sampling_rate : ℚ) / (fft_len : ℚ) := by
    unfold bin_frequency
    push_cast
    ring
  have hone : (1 : ℚ) ≤ (sampling_rate : ℚ) / (fft_len : ℚ) := by
    rw [one_le_div hflq]
    exact_mod_cast hr
  have h0 : (0 : ℤ) ≤ ⌊bin_frequency fft_len sampling_rate i⌋ :=
    Int.floor_nonneg.mpr hfreq_nonneg
  have h1 : ⌊bin_frequency fft_len sampling_rate i⌋ + 1 ≤
      ⌊bin_frequency fft_len sampling_rate (i + 1)⌋ := by
    rw [Int.le_floor]
    push_cast
    have hle := Int.floor_le (bin_frequency fft_len sampling_rate i)
    rw [hstep]
    linarith
  unfold bin_key
  omega

theorem binsFrom_length (fft_len sampling_rate : ℕ) :
    ∀ (l : List ℚ) (i : ℕ), (binsFrom fft_len sampling_rate i l).length = l.length := by
  intro l
  induction l with
  | nil => intro i; simp [binsFrom]
  | cons v rest ih =>
    intro i
    simp [binsFrom, ih (i + 1)]

theorem binsFrom_getD (fft_len sampling_rate : ℕ) :
    ∀ (l : List ℚ) (i j : ℕ), j < l.length →
    (binsFrom fft_len sampling_rate i l).getD j (0, 0) =
      (bin_key fft_len sampling_rate (i + j), l.getD j 0) := by
  intro l
  induction l with
  | nil =>
    intro i j hj
    simp at hj
  | cons v rest ih =>
    intro i j hj
    cases j with
    | zero => simp [binsFrom]
    | succ j =>
      simp only [binsFrom, List.getD_cons_succ]
      rw [ih (i + 1) j (by simpa using hj)]
      have : i + 1 + j = i + (j + 1) := by omega
      rw [this]

theorem spectrumLoop_none_eq_append {fft_len sampling_rate : ℕ}
    (hmono : ∀ i, bin_key fft_len sampling_rate i < bin_key fft_len sampling_rate (i + 1)) :
    ∀ (l : List ℚ) (i : ℕ) (acc : List (ℕ × ℚ)),
    (∀ p ∈ acc, p.1 < bin_key fft_len sampling_rate i) →
    spectrumLoop fft_len sampling_rate none i l acc =
      acc ++ binsFrom fft_len sampling_rate i l := by
  intro l
  induction l with
  | nil =>
    intro i acc hacc
    simp [spectrumLoop, binsFrom]
  | cons v rest ih =>
    intro i acc hacc
    have hmono' : ∀ i j, i ≤ j →
        bin_key fft_len sampling_rate i ≤ bin_key fft_len sampling_rate j := by
      intro a b hab
      induction b with
      | zero => simp_all
      | succ b ihb =>
        rcases Nat.lt_or_ge a (b + 1) with h | h
        · exact le_trans (ihb (by omega)) (le_of_lt (hmono b))
        · have : a = b + 1 := by omega
          simp [this]
    simp only [spectrumLoop, binsFrom]
    rw [show (⌊bin_frequency fft_len sampling_rate i⌋).toNat
      = bin_key fft_len sampling_rate i from rfl]
    rw [btreeInsert_of_forall_lt hacc]
    rw [ih (i + 1) (acc ++ [(bin_key fft_len sampling_rate i, v)]) ?_]
    · simp
    · intro p hp
      simp only [List.mem_append, List.mem_singleton] at hp
      rcases hp with hp | hp
      · exact lt_of_lt_of_le (hacc p hp) (hmono' i (i + 1) (by omega))
      · simp [hp, hmono i]

/-! ### Reduction lemmas for the IEEE-754 scalar model -/

@[simp] theorem F32.nan_mul (x : F32) : F32.mul F32.nan x = F32.nan := by
  cases x <;> rfl

@[simp] theorem F32.mul_nan (x : F32) : F32.mul x F32.nan = F32.nan := by
  cases x <;> rfl

@[simp] theorem F32.fin_mul_fin (a b : ℚ) :
    F32.mul (F32.fin a) (F32.fin b) = F32.fin (a * b) := rfl

@[simp] theorem F32.sub_nan (x : F32) : F32.sub x F32.nan = F32.nan := by
  cases x <;> rfl

@[simp] theorem F32.cosine_nan (cos : ℚ → ℚ) : F32.cosine cos F32.nan = F32.nan := rfl

@[simp] theorem F32.fin_div_fin (a b : ℚ) :
    F32.div (F32.fin a) (F32.fin b)
      = if b = 0 then
          (if a = 0 then F32.nan else if a < 0 then F32.inf true else F32.inf false)
        else F32.fin (a / b) := rfl

/-! ### Lemmas about the statistics -/

theorem foldl_add_eq_sum : ∀ (l : List ℚ) (a : ℚ), l.foldl (· + ·) a = a + l.sum := by
  intro l
  induction l with
  | nil =>
    intro a
    simp
  | cons x rest ih =>
    intro a
    simp only [List.foldl_cons, List.sum_cons, ih]
    ring

theorem sortedVals_length (vals : List ℚ) : (sortedVals vals).length = vals.length := by
  simp [sortedVals, List.length_insertionSort]

theorem sortedVals_perm (vals : List ℚ) : (sortedVals vals).Perm vals :=
  List.perm_insertionSort _ vals

theorem sortedVals_sorted (vals : List ℚ) : (sortedVals vals).Sorted (· ≤ ·) :=
  List.sorted_insertionSort _ vals

theorem minSpec_le {vals : List ℚ} {v : ℚ} (hv : v ∈ vals) : minSpec vals ≤ v := by
  have hv' : v ∈ sortedVals vals := (sortedVals_perm vals).mem_iff.mpr hv
  obtain ⟨j, hj, rfl⟩ := List.mem_iff_getElem.mp hv'
  have h0 : 0 < (sortedVals vals).length := by omega
  unfold minSpec
  rw [List.getD_eq_getElem _ _ h0]
  rcases Nat.eq_zero_or_pos j with hj0 | hj0
  · subst hj0
    exact le_refl _
  · exact List.pairwise_iff_getElem.mp (sortedVals_sorted vals) 0 j h0 hj hj0

theorem minSpec_mem {vals : List ℚ} (hne : vals ≠ []) : minSpec vals ∈ vals := by
  have h0 : 0 < (sortedVals vals).length := by
    rw [sortedVals_length]
    exact List.length_pos.mpr hne
  unfold minSpec
  rw [List.getD_eq_getElem _ _ h0]
  exact (sortedVals_perm vals).mem_iff.mp (List.getElem_mem h0)

theorem le_maxSpec {vals : List ℚ} {v : ℚ} (hv : v ∈ vals) : v ≤ maxSpec vals := by
  have hv' : v ∈ sortedVals vals := (sortedVals_perm vals).mem_iff.mpr hv
  obtain ⟨j, hj, rfl⟩ := List.mem_iff_getElem.mp hv'
  have hlenpos : 0 < vals.length := by
    have hj' := hj
    rw [sortedVals_length] at hj'
    omega
  have hlast : vals.length - 1 < (sortedVals vals).length := by
    rw [sortedVals_length]
    omega
  unfold maxSpec
  rw [List.getD_eq_getElem _ _ hlast]
  rcases Nat.lt_or_ge j (vals.length - 1) with hj1 | hj1
  · exact List.pairwise_iff_getElem.mp (sortedVals_sorted vals) j (vals.length - 1) hj hlast hj1
  · have : j = vals.length - 1 := by
      rw [sortedVals_length] at hj
      omega
    subst this
    exact le_refl _

theorem maxSpec_mem {vals : List ℚ} (hne : vals ≠ []) : maxSpec vals ∈ vals := by
  have hlast : vals.length - 1 < (sortedVals vals).length := by
    rw [sortedVals_length]
    have := List.length_pos.mpr hne
    omega
  unfold maxSpec
  rw [List.getD_eq_getElem _ _ hlast]
  exact (sortedVals_perm vals).mem_iff.mp (List.getElem_mem hlast)

theorem calc_statistics_of_two_le (data : List (ℚ × ℚ)) (h2 : 2 ≤ data.length) :
    calc_statistics data = some
      { average := averageSpec (data.map Prod.snd)
        median := medianSpec (data.map Prod.snd)
        min := minSpec (data.map Prod.snd)
        max := maxSpec (data.map Prod.snd) } := by
  have hlen : ((data.map Prod.snd).insertionSort (· ≤ ·)).length = data.length := by
    rw [List.length_insertionSort, List.length_map]
  simp only [calc_statistics]
  rw [if_pos (by rw [hlen]; exact h2)]
  simp only [Option.some.injEq, SpectrumStats.mk.injEq]
  refine ⟨?_, ?_, rfl, ?_⟩
  · rw [foldl_add_eq_sum, zero_add, List.Perm.sum_eq (List.perm_insertionSort _ _)]
    rw [hlen]
    simp [averageSpec, List.length_map]
  · simp only [medianSpec, sortedVals, hlen, List.length_map]
  · simp only [maxSpec, sortedVals, hlen, List.length_map]

theorem calc_statistics_of_lt_two (data : List (ℚ × ℚ)) (h2 : data.length < 2) :
    calc_statistics data = none := by
  have hlen : ((data.map Prod.snd).insertionSort (· ≤ ·)).length = data.length := by
    rw [List.length_insertionSort, List.length_map]
  simp only [calc_statistics]
  rw [if_neg (by omega)]

theorem new_of_two_le (data : List (ℚ × ℚ)) (h2 : 2 ≤ data.length) :
    FrequencySpectrum.new data = some
      { data := data
        average := averageSpec (data.map Prod.snd)
        median := medianSpec (data.map Prod.snd)
        min := minSpec (data.map Prod.snd)
        max := maxSpec (data.map Prod.snd) } := by
  unfold FrequencySpectrum.new
  rw [calc_statistics_of_two_le data h2]
  rfl

theorem apply_total_scaling_fn_of_two_le (s : FrequencySpectrum)
    (factory : ℚ → ℚ → ℚ → ℚ → (ℚ → ℚ)) (h2 : 2 ≤ s.data.length) :
    s.apply_total_scaling_fn factory = some
      { data := s.data.map (fun p => (p.1, factory s.min s.max s.average s.median p.2))
        average := averageSpec ((s.data.map (fun p => (p.1, factory s.min s.max s.average s.median p.2))).map Prod.snd)
        median := medianSpec ((s.data.map (fun p => (p.1, factory s.min s.max s.average s.median p.2))).map Prod.snd)
        min := minSpec ((s.data.map (fun p => (p.1, factory s.min s.max s.average s.median p.2))).map Prod.snd)
        max := maxSpec ((s.data.map (fun p => (p.1, factory s.min s.max s.average s.median p.2))).map Prod.snd) } := by
  simp only [FrequencySpectrum.apply_total_scaling_fn]
  rw [calc_statistics_of_two_le _ (by rw [List.length_map]; exact h2)]
  rfl

/-! ### Claim C1 -/

/-- Claim C1 as stated is false: distinct FFT bins can truncate to the
same integer frequency, and the `BTreeMap` then keeps a single entry.
Concretely, the power-of-two-length buffer `[1, 0, 0, 0]` at sampling
rate 1 with a length-preserving transform and no `max_frequency`
ceiling yields 1 entry, not `4 / 2 = 2`. -/
theorem claim_C1_counterexample :
    ([(1 : ℚ), 0, 0, 0].length = 2 ^ 2)
    ∧ (∀ buffer : List Complex32, ((fun b => b) buffer).length = buffer.length)
    ∧ (samples_fft_to_spectrum (fun b => b) (fun q => q) [1, 0, 0, 0] 1 none none).length
        ≠ [(1 : ℚ), 0, 0, 0].length / 2 := by
  refine ⟨by decide, fun _ => rfl, ?_⟩
  have hval : samples_fft_to_spectrum (fun b => b) (fun q => q) [1, 0, 0, 0] 1 none none
      = [(0, 0)] := by
    norm_num [samples_fft_to_spectrum, samples_to_complex, fft_result_to_magnitudes,
      complexNorm, magnitudes_to_frequency_spectrum, spectrumLoop, bin_frequency, btreeInsert]
  rw [hval]
  decide

/-- Claim C1 (amended): for every sample buffer whose length is a power
of two (with the external FFT keeping buffer length, per its contract),
`samples_fft_to_spectrum` with no `max_frequency` ceiling produces at
most `samples.length / 2` entries — exactly `samples.length / 2`
whenever `sampling_rate ≥ samples.length`, since the bin keys are then
pairwise distinct — and with a ceiling it also produces at most
`samples.length / 2` entries. -/
theorem claim_C1_entry_count (fft : List Complex32 → List Complex32) (sqrt : ℚ → ℚ)
    (samples : List ℚ) (sampling_rate : ℕ) (scaling_fn : Option (ℚ → ℚ))
    (hfft : ∀ buffer, (fft buffer).length = buffer.length)
    (hpow : ∃ k, samples.length = 2 ^ k) :
    (samples_fft_to_spectrum fft sqrt samples sampling_rate scaling_fn none).length
        ≤ samples.length / 2
    ∧ (samples.length ≤ sampling_rate →
        (samples_fft_to_spectrum fft sqrt samples sampling_rate scaling_fn none).length
          = samples.length / 2)
    ∧ (∀ mf : ℚ,
        (samples_fft_to_spectrum fft sqrt samples sampling_rate scaling_fn (some mf)).length
          ≤ samples.length / 2) := by
  have hbuf : (fft (samples_to_complex samples)).length = samples.length := by
    rw [hfft, samples_to_complex, List.length_map]
  have hmags : ∀ sc : Option (ℚ → ℚ),
      (fft_result_to_magnitudes sqrt (fft (samples_to_complex samples))
        samples.length sc).length = samples.length / 2 := by
    intro sc
    unfold fft_result_to_magnitudes
    rw [List.length_map, List.length_map, List.length_take, hbuf]
    omega
  refine ⟨?_, ?_, ?_⟩
  · simp only [samples_fft_to_spectrum, magnitudes_to_frequency_spectrum]
    have := length_spectrumLoop_le samples.length sampling_rate none
      (fft_result_to_magnitudes sqrt (fft (samples_to_complex samples))
        samples.length scaling_fn) 0 []
    rw [hmags scaling_fn] at this
    simpa using this
  · intro hr
    obtain ⟨k, hk⟩ := hpow
    have hnpos : 0 < samples.length := by
      rw [hk]
      exact pow_pos (by norm_num) k
    simp only [samples_fft_to_spectrum, magnitudes_to_frequency_spectrum]
    rw [spectrumLoop_none_eq_append (fun i => bin_key_lt_succ hnpos hr i) _ 0 [] (by simp)]
    simp [binsFrom_length, hmags scaling_fn]
  · intro mf
    simp only [samples_fft_to_spectrum, magnitudes_to_frequency_spectrum]
    have := length_spectrumLoop_le samples.length sampling_rate (some mf)
      (fft_result_to_magnitudes sqrt (fft (samples_to_complex samples))
        samples.length scaling_fn) 0 []
    rw [hmags scaling_fn] at this
    simpa using this

/-- Witness for claim C1: a length-4 buffer at sampling rate 44100
produces exactly `4 / 2 = 2` entries. -/
theorem claim_C1_witness :
    (samples_fft_to_spectrum (fun b => b) (fun q => q) [1, 0, 0, 0] 44100 none none).length
      = [(1 : ℚ), 0, 0, 0].length / 2 :=
  (claim_C1_entry_count (fun b => b) (fun q => q) [1, 0, 0, 0] 44100 none
    (fun _ => rfl) ⟨2, rfl⟩).2.1 (by decide)

/-! ### Claim C2 -/

/-- Claim C2 evaluated at the failing input: for the length-3 buffer
`[1, 2, 3]` — neither zero length nor a power of two — the entry point
performs no validation and reports no `InvalidInputLength` error (its
return type, like the Rust signature `BTreeMap<usize, f32>`, has no
error case at all): it proceeds into the transform and returns an
ordinary mis-sized map. -/
theorem claim_C2_no_invalid_input_error :
    samples_fft_to_spectrum (fun b => b) (fun q => q) [1, 2, 3] 44100 none none
      = [(0, 1)] := by
  norm_num [samples_fft_to_spectrum, samples_to_complex, fft_result_to_magnitudes,
    complexNorm, magnitudes_to_frequency_spectrum, spectrumLoop, bin_frequency, btreeInsert]

/-! ### Claim C3 -/

/-- Claim C3: the frequency mapper assigns bin `i` the frequency
`i / fft_length * sampling_rate`, keys each entry by the
integer-truncated frequency, resolves key collisions last-bin-wins
(the lookup in the produced map is the lookup of the LAST matching
bin), and the produced keyed mapping is strictly ascending in its
(frequency-derived) keys. -/
theorem claim_C3_frequency_mapper (magnitudes : List ℚ) (fft_len sampling_rate : ℕ)
    (hfl : 0 < fft_len) :
    (∀ j, j < magnitudes.length →
      (binsFrom fft_len sampling_rate 0 magnitudes).getD j (0, 0) =
        ((⌊(j : ℚ) / (fft_len : ℚ) * (sampling_rate : ℚ)⌋).toNat, magnitudes.getD j 0))
    ∧ (∀ k, btreeLookup k
        (magnitudes_to_frequency_spectrum magnitudes fft_len sampling_rate none)
          = lookupLast k (binsFrom fft_len sampling_rate 0 magnitudes))
    ∧ (magnitudes_to_frequency_spectrum magnitudes fft_len sampling_rate none).Pairwise
        (fun p q => p.1 < q.1) := by
  have hpos := hfl
  refine ⟨?_, ?_, ?_⟩
  · intro j hj
    simpa [bin_key, bin_frequency] using binsFrom_getD fft_len sampling_rate magnitudes 0 j hj
  · intro k
    unfold magnitudes_to_frequency_spectrum
    rw [btreeLookup_spectrumLoop_none fft_len sampling_rate k magnitudes 0 []]
    cases lookupLast k (binsFrom fft_len sampling_rate 0 magnitudes) with
    | none => rfl
    | some w => rfl
  · exact pairwise_spectrumLoop fft_len sampling_rate none magnitudes 0 [] List.Pairwise.nil

/-- Witness for claim C3: the mapper's lookup at key 1 for two bins of
fft length 4 at sampling rate 6. -/
theorem claim_C3_witness :
    btreeLookup 1 (magnitudes_to_frequency_spectrum [3, 4] 4 6 none)
      = lookupLast 1 (binsFrom 4 6 0 [3, 4]) :=
  (claim_C3_frequency_mapper [3, 4] 4 6 (by decide)).2.1 1

/-! ### Claim C4 -/

/-- Claim C4: for even-length non-empty data, the cached median equals
the average of the two central elements of the magnitudes sorted
ascending — two genuinely distinct central positions, never a single
center — both at construction and after any rescaling. -/
theorem claim_C4_median (data : List (ℚ × ℚ)) (heven : data.length % 2 = 0)
    (hne : data ≠ []) :
    (data.length / 2 - 1 ≠ data.length / 2)
    ∧ (∀ s : FrequencySpectrum, FrequencySpectrum.new data = some s →
        s.median = medianSpec (data.map Prod.snd))
    ∧ (∀ (s : FrequencySpectrum) (factory : ℚ → ℚ → ℚ → ℚ → (ℚ → ℚ))
        (s' : FrequencySpectrum), s.data = data →
        s.apply_total_scaling_fn factory = some s' →
        s'.median = medianSpec (s'.data.map Prod.snd)) := by
  have h0 : data.length ≠ 0 := fun h => hne (List.length_eq_zero.mp h)
  have h2 : 2 ≤ data.length := by omega
  refine ⟨by omega, ?_, ?_⟩
  · intro s hs
    rw [new_of_two_le data h2] at hs
    injection hs with hs
    subst hs
    rfl
  · intro s factory s' hdata happly
    have h2' : 2 ≤ s.data.length := by rw [hdata]; exact h2
    rw [apply_total_scaling_fn_of_two_le s factory h2'] at happly
    injection happly with happly
    subst happly
    rfl

/-- Witness for claim C4: the spectrum freshly constructed from two
pairs caches the median of its magnitudes. -/
theorem claim_C4_witness :
    ({ data := [(0, 5), (1, 2)],
        average := averageSpec ([((0 : ℚ), (5 : ℚ)), (1, 2)].map Prod.snd),
        median := medianSpec ([((0 : ℚ), (5 : ℚ)), (1, 2)].map Prod.snd),
        min := minSpec ([((0 : ℚ), (5 : ℚ)), (1, 2)].map Prod.snd),
        max := maxSpec ([((0 : ℚ), (5 : ℚ)), (1, 2)].map Prod.snd) } : FrequencySpectrum).median
      = medianSpec ([((0 : ℚ), (5 : ℚ)), (1, 2)].map Prod.snd) :=
  (claim_C4_median [(0, 5), (1, 2)] (by decide) (by decide)).2.1 _
    (new_of_two_le [(0, 5), (1, 2)] (by decide))

/-! ### Claim C5 -/

/-- Claim C5: `apply_total_scaling_fn` hands the factory the four
statistics of the PRE-scaling magnitudes as one snapshot, applies the
returned transform to every magnitude while keeping every frequency,
and afterwards the four cached statistics equal the statistics
recomputed from the new magnitudes. -/
theorem claim_C5_total_scaling (s : FrequencySpectrum)
    (factory : ℚ → ℚ → ℚ → ℚ → (ℚ → ℚ))
    (hcons : StatsConsistent s) (h2 : 2 ≤ s.data.length) :
    ∃ s', s.apply_total_scaling_fn factory = some s'
      ∧ s'.data.map Prod.fst = s.data.map Prod.fst
      ∧ s'.data.map Prod.snd = (s.data.map Prod.snd).map
          (factory (minSpec (s.data.map Prod.snd)) (maxSpec (s.data.map Prod.snd))
            (averageSpec (s.data.map Prod.snd)) (medianSpec (s.data.map Prod.snd)))
      ∧ StatsConsistent s' := by
  obtain ⟨hmin, hmax, havg, hmed⟩ := hcons
  refine ⟨_, apply_total_scaling_fn_of_two_le s factory h2, ?_, ?_, rfl, rfl, rfl, rfl⟩
  · simp [List.map_map]
  · rw [hmin, hmax, havg, hmed]
    simp [List.map_map]

/-- Witness for claim C5: subtracting the minimum from every magnitude
of a concrete two-entry spectrum whose cached statistics are its
recomputed statistics. -/
theorem claim_C5_witness :
    ∃ s', FrequencySpectrum.apply_total_scaling_fn
        { data := [(0, 5), (1, 2)],
          average := averageSpec ([((0 : ℚ), (5 : ℚ)), (1, 2)].map Prod.snd),
          median := medianSpec ([((0 : ℚ), (5 : ℚ)), (1, 2)].map Prod.snd),
          min := minSpec ([((0 : ℚ), (5 : ℚ)), (1, 2)].map Prod.snd),
          max := maxSpec ([((0 : ℚ), (5 : ℚ)), (1, 2)].map Prod.snd) }
        (fun mn _ _ _ => fun v => v - mn) = some s'
      ∧ s'.data.map Prod.fst = ([((0 : ℚ), (5 : ℚ)), (1, 2)]).map Prod.fst
      ∧ s'.data.map Prod.snd
          = (([((0 : ℚ), (5 : ℚ)), (1, 2)]).map Prod.snd).map
            (fun v => v - minSpec (([((0 : ℚ), (5 : ℚ)), (1, 2)]).map Prod.snd))
      ∧ StatsConsistent s' :=
  claim_C5_total_scaling
    { data := [(0, 5), (1, 2)],
      average := averageSpec ([((0 : ℚ), (5 : ℚ)), (1, 2)].map Prod.snd),
      median := medianSpec ([((0 : ℚ), (5 : ℚ)), (1, 2)].map Prod.snd),
      min := minSpec ([((0 : ℚ), (5 : ℚ)), (1, 2)].map Prod.snd),
      max := maxSpec ([((0 : ℚ), (5 : ℚ)), (1, 2)].map Prod.snd) }
    (fun mn _ _ _ => fun v => v - mn) ⟨rfl, rfl, rfl, rfl⟩ (by decide)

/-! ### Claim C6 -/

/-- Claim C6 evaluated against the code: whatever value a scaling
function produces — `q` standing in for the NaN/Infinity the rational
embedding cannot represent — `fft_result_to_magnitudes` stores it for
every bin with no finiteness check, and its return type (like the Rust
`Vec<f32>`; the crate defines no error type) has no error case.  The
aggregate path is the same: `apply_total_scaling_fn` stores the
factory's outputs verbatim (see `claim_C5_total_scaling`'s magnitude
equation).  The in-repo documentation (scaling.rs lines 59-61) promises
`Err` on NaN/Infinity instead. -/
theorem claim_C6_scaling_unchecked (q : ℚ) (sqrt : ℚ → ℚ)
    (fft_result : List Complex32) (fft_len : ℕ) :
    fft_result_to_magnitudes sqrt fft_result fft_len (some (fun _ => q))
      = List.replicate (min (fft_len / 2) fft_result.length) q := by
  unfold fft_result_to_magnitudes
  simp only [Option.getD_some]
  rw [List.map_const']
  rw [List.length_map, List.length_take]

/-! ### Claim C7 -/

/-- Claim C7: for every non-empty magnitude sequence, the mapped
spectrum contains the zero-frequency (DC) entry under every
`max_frequency`, and a `max_frequency` below the first bin's frequency
(0 Hz) still yields exactly the DC entry: the ceiling check runs
strictly after each emission, never before. -/
theorem claim_C7_dc_entry (magnitudes : List ℚ) (fft_len sampling_rate : ℕ)
    (mf : Option ℚ) (hne : magnitudes ≠ []) (hfl : 0 < fft_len) :
    (btreeLookup 0
      (magnitudes_to_frequency_spectrum magnitudes fft_len sampling_rate mf)).isSome
    ∧ (∀ m : ℚ, m < 0 →
        magnitudes_to_frequency_spectrum magnitudes fft_len sampling_rate (some m)
          = [(0, magnitudes.headD 0)]) := by
  have hpos := hfl
  have hfreq0 : bin_frequency fft_len sampling_rate 0 = 0 := by
    unfold bin_frequency
    simp
  cases magnitudes with
  | nil => exact absurd rfl hne
  | cons v rest =>
    constructor
    · unfold magnitudes_to_frequency_spectrum
      simp only [spectrumLoop, hfreq0]
      have hacc : (btreeLookup 0 (btreeInsert (⌊(0 : ℚ)⌋).toNat v [])).isSome := by
        simp [btreeInsert, btreeLookup]
      cases mf with
      | none => exact isSome_btreeLookup_spectrumLoop _ _ _ _ rest 1 _ hacc
      | some max =>
        by_cases hbr : max < 0
        · simpa [if_pos hbr] using hacc
        · simp only [if_neg hbr]
          exact isSome_btreeLookup_spectrumLoop _ _ _ _ rest 1 _ hacc
    · intro m hm
      unfold magnitudes_to_frequency_spectrum
      simp only [spectrumLoop, hfreq0, if_pos hm]
      simp [btreeInsert]

/-- Witness for claim C7: a `max_frequency` of `-1` still leaves the DC
entry for the first of four magnitudes. -/
theorem claim_C7_witness :
    magnitudes_to_frequency_spectrum [5, 6, 7, 8] 8 44100 (some (-1))
      = [(0, ([5, 6, 7, 8] : List ℚ).headD 0)] :=
  (claim_C7_dc_entry [5, 6, 7, 8] 8 44100 (some (-1)) (by decide) (by decide)).2
    (-1) (by norm_num)

/-! ### Claim C8 -/

/-- Claim C8: `hann_window` keeps the input length and multiplies the
sample at each index `i` by the weight
`0.5 * (1 - cos(2 * pi * i / N))` with `N` the input length. -/
theorem claim_C8_hann (pi : ℚ) (cos : ℚ → ℚ) (samples : List ℚ)
    (hne : samples ≠ []) (i : ℕ) (hi : i < samples.length) :
    (hann_window pi cos samples).length = samples.length
    ∧ (hann_window pi cos samples).getD i 0
        = 1 / 2 * (1 - cos (2 * pi * (i : ℚ) / (samples.length : ℚ)))
            * samples.getD i 0 := by
  have hemp := hne
  have hlen : (hann_window pi cos samples).length = samples.length := by
    simp [hann_window]
  refine ⟨hlen, ?_⟩
  rw [List.getD_eq_getElem _ _ (by rw [hlen]; exact hi)]
  simp [hann_window]

/-- Witness for claim C8: the window keeps the length of a two-sample
input. -/
theorem claim_C8_witness :
    (hann_window 3 (fun q => 1 - q) [5, 7]).length = 2 :=
  (claim_C8_hann 3 (fun q => 1 - q) [5, 7] (by decide) 1 (by decide)).1

/-! ### Claim C9 -/

/-- Claim C9 as stated is false: construction CAN fail.  On the empty
input vector `calc_statistics` indexes `vals[vals.len() / 2 - 1]`,
whose index arithmetic underflows and whose access is out of bounds, so
`new` panics — `none` in the embedding. -/
theorem claim_C9_counterexample :
    FrequencySpectrum.new ([] : List (ℚ × ℚ)) = none := rfl

/-- Claim C9 (amended): for every input vector with at least two
(frequency, magnitude) pairs, construction succeeds and immediately
computes and caches min, max, average and median (min and max being a
least and a greatest magnitude, average the sum over the count, median
per `medianSpec`); for vectors of fewer than two pairs the statistics
indexing panics and construction fails. -/
theorem claim_C9_construction (data : List (ℚ × ℚ)) :
    (2 ≤ data.length →
      ∃ s, FrequencySpectrum.new data = some s
        ∧ (s.min ∈ data.map Prod.snd ∧ ∀ v ∈ data.map Prod.snd, s.min ≤ v)
        ∧ (s.max ∈ data.map Prod.snd ∧ ∀ v ∈ data.map Prod.snd, v ≤ s.max)
        ∧ s.average = (data.map Prod.snd).sum / ((data.map Prod.snd).length : ℚ)
        ∧ s.median = medianSpec (data.map Prod.snd))
    ∧ (data.length < 2 → FrequencySpectrum.new data = none) := by
  constructor
  · intro h2
    have hne : data.map Prod.snd ≠ [] := by
      have hpos : 0 < (data.map Prod.snd).length := by
        rw [List.length_map]
        omega
      exact List.length_pos.mp hpos
    refine ⟨_, new_of_two_le data h2, ⟨minSpec_mem hne, ?_⟩, ⟨maxSpec_mem hne, ?_⟩, rfl, rfl⟩
    · intro v hv
      exact minSpec_le hv
    · intro v hv
      exact le_maxSpec hv
  · intro h2
    unfold FrequencySpectrum.new
    rw [calc_statistics_of_lt_two data h2]
    rfl

/-- Witness for claim C9: construction succeeds on a four-entry vector
and caches its statistics. -/
theorem claim_C9_witness :
    ∃ s, FrequencySpectrum.new [(0, 5), (1, 2), (2, 9), (3, 4)] = some s
      ∧ (s.min ∈ [((0 : ℚ), (5 : ℚ)), (1, 2), (2, 9), (3, 4)].map Prod.snd
          ∧ ∀ v ∈ [((0 : ℚ), (5 : ℚ)), (1, 2), (2, 9), (3, 4)].map Prod.snd, s.min ≤ v)
      ∧ (s.max ∈ [((0 : ℚ), (5 : ℚ)), (1, 2), (2, 9), (3, 4)].map Prod.snd
          ∧ ∀ v ∈ [((0 : ℚ), (5 : ℚ)), (1, 2), (2, 9), (3, 4)].map Prod.snd, v ≤ s.max)
      ∧ s.average = ([((0 : ℚ), (5 : ℚ)), (1, 2), (2, 9), (3, 4)].map Prod.snd).sum
          / (([((0 : ℚ), (5 : ℚ)), (1, 2), (2, 9), (3, 4)].map Prod.snd).length : ℚ)
      ∧ s.median = medianSpec ([((0 : ℚ), (5 : ℚ)), (1, 2), (2, 9), (3, 4)].map Prod.snd) :=
  (claim_C9_construction [(0, 5), (1, 2), (2, 9), (3, 4)]).1 (by decide)

/-! ### Claim C10 -/

/-- Claim C10: on a length-1 input `hamming_window` does not fail — the
embedding is a total function, as the Rust loop performs no fallible
operation there — and returns the length-1 sequence whose single
element is NaN: the position weight divides `0.0` by
`(len - 1) as f32 = 0.0`, giving NaN, which propagates through `cos`,
the subtraction and the final multiplication, whatever the sample
value. -/
theorem claim_C10_hamming_singleton (pi : ℚ) (cos : ℚ → ℚ) (s : F32) :
    hamming_window pi cos [s] = [F32.nan] := by
  simp only [hamming_window, List.length_singleton, List.range_succ, List.range_zero,
    List.nil_append, List.map_cons, List.map_nil]
  norm_num

end SpectrumAnalyzer
